import Mathlib

/-!
Verification development for the epg-merge backend.

The definitions below are shallow embeddings of the Python code in
src/backend/services/merge_service.py, src/backend/services/job_service.py and
src/backend/routers/jobs.py. Each definition carries a doc comment naming the
source function and lines it embeds. Theorems settle the frozen claims about
that code.
-/

namespace EpgMerge

/-! ## Streaming merge engine
Embedding of MergeService._merge_xml_files (merge_service.py lines 135-222).
The iterparse stream of end events is modelled as a list of elements; only
channel and programme tags are inspected, every other tag falls through. -/

/-- One end event of the XML stream. Attribute lookups that Python performs
with elem.get return Option String. For a programme element, titleChild is
the result of elem.find applied to title: the outer Option is presence of the
title child element, the inner Option is its text (Python text can be None). -/
inductive Elem where
  | channel (id : Option String)
  | programme (channel : Option String) (start : Option String)
      (titleChild : Option (Option String))
  | other
deriving DecidableEq

def Elem.isChannel : Elem → Bool
  | .channel _ => true
  | _ => false

def Elem.isProgramme : Elem → Bool
  | .programme _ _ _ => true
  | _ => false

/-- Python line 181: title = title_elem.text if title_elem is not None else
the empty string. The value is a string or None, hence Option String. -/
def titleValue (titleChild : Option (Option String)) : Option String :=
  match titleChild with
  | none => some ""
  | some t => t

/-- The dedup key of line 182: (channel attribute, start attribute with
default empty string, computed title value). -/
def progKey (ch : String) (start : Option String)
    (titleChild : Option (Option String)) : String × String × Option String :=
  (ch, start.getD "", titleValue titleChild)

/-- Mutable state of the merge loop: the output tree children in append
order, the channels_seen set and the programmes_seen set. The Python sets
are modelled as duplicate-free lists grown only under a membership check, so
list length equals set cardinality. -/
structure MergeState where
  merged : List Elem
  channelsSeen : List String
  programmesSeen : List (String × String × Option String)
deriving DecidableEq

def initState : MergeState := ⟨[], [], []⟩

/-- Body of the iterparse loop (lines 168-187) for a single end event. -/
def processElem (keep : List String) (st : MergeState) (e : Elem) : MergeState :=
  match e with
  | .channel id =>
      match id with
      | some cid =>
          if cid ∈ keep ∧ cid ∉ st.channelsSeen then
            { st with merged := st.merged ++ [Elem.channel (some cid)],
                      channelsSeen := st.channelsSeen ++ [cid] }
          else st
      | none => st
  | .programme ch start titleChild =>
      match ch with
      | some cid =>
          if cid ∈ st.channelsSeen then
            if progKey cid start titleChild ∈ st.programmesSeen then st
            else
              { st with
                  merged := st.merged ++ [Elem.programme (some cid) start titleChild],
                  programmesSeen := st.programmesSeen ++ [progKey cid start titleChild] }
          else st
      | none => st
  | .other => st

/-- Processing one source file: fold the loop body over its event stream. -/
def processFile (keep : List String) (st : MergeState) (file : List Elem) : MergeState :=
  file.foldl (processElem keep) st

/-- The whole merge over the caller supplied file list (lines 146-199). -/
def mergeFiles (keep : List String) (files : List (List Elem)) : MergeState :=
  files.foldl (processFile keep) initState

/-- channels_included of the result dictionary (line 219). -/
def channelsIncluded (keep : List String) (files : List (List Elem)) : Nat :=
  (mergeFiles keep files).channelsSeen.length

/-- programs_included of the result dictionary (line 220). -/
def programsIncluded (keep : List String) (files : List (List Elem)) : Nat :=
  (mergeFiles keep files).programmesSeen.length

/-- Invariant that the merge loop maintains: every id in channels_seen is in
the keep list and names a channel element already appended to the output, and
every programme appended to the output carries the id of a seen channel. -/
def MergeInv (keep : List String) (st : MergeState) : Prop :=
  (∀ c, c ∈ st.channelsSeen → c ∈ keep ∧ Elem.channel (some c) ∈ st.merged) ∧
  (∀ ch s t, Elem.programme ch s t ∈ st.merged →
    ∃ c, ch = some c ∧ c ∈ st.channelsSeen)

/-! ## Source cache manager
Embedding of the per-source decision of MergeService._download_sources
(merge_service.py lines 254-315). -/

/-- A network request issued for one source. -/
inductive NetCall where
  | headCall
  | getCall
deriving DecidableEq

/-- Network requests the loop body issues for one source.

cacheExists models cache_file.exists at line 262, localSize the stat size at
line 263 and ageHours the quantity computed at line 264 (it is only logged).
headResponse models the HEAD request of lines 270-271: none is a raised
exception, some (status, contentLength) a response, where contentLength is
int of the content-length header with default 0 (line 274).

Control flow: with a cache present the HEAD request is issued; on status 200
with remote size equal to local size the loop continues with the cached file
(line 283) and no GET happens; in every other case, and when no cache file
exists, the full GET of line 302 is issued. -/
def downloadCalls (cacheExists : Bool) (localSize ageHours : Nat)
    (headResponse : Option (Nat × Nat)) : List NetCall :=
  if cacheExists then
    match headResponse with
    | some (status, remoteSize) =>
        if status = 200 ∧ remoteSize = localSize then [NetCall.headCall]
        else [NetCall.headCall, NetCall.getCall]
    | none => [NetCall.headCall, NetCall.getCall]
  else [NetCall.getCall]

/-! ## Merge input validation and the feed-type folder map
Embedding of MergeService.execute_merge lines 45-67 and the folder_map of
_download_sources lines 238-243. -/

/-- The arguments execute_merge reads out of its data dictionary. -/
structure MergeInput where
  sources : List String
  channels : List String
  timeframe : String
  feed_type : String
deriving DecidableEq

/-- Python str.strip with a one-character set: drop that character from both
ends of the string. -/
def stripCharEnds (c : Char) (s : List Char) : List Char :=
  ((s.dropWhile (fun a => a = c)).reverse.dropWhile (fun a => a = c)).reverse

/-- Line 56: timeframe.strip of the double-quote character followed by strip
of the single-quote character. -/
def stripQuotes (s : String) : String :=
  ⟨stripCharEnds (Char.ofNat 39) (stripCharEnds (Char.ofNat 34) s.toList)⟩

/-- Decimal digit value of a character, none for a non-digit. -/
def digitVal (c : Char) : Option Nat :=
  if 48 ≤ c.toNat ∧ c.toNat ≤ 57 then some (c.toNat - 48) else none

/-- Accumulating decimal parse; none as accumulator or a non-digit poisons
the result. -/
def parseDigits (cs : List Char) : Option Nat :=
  if cs = [] then none
  else
    cs.foldl
      (fun acc c =>
        match acc, digitVal c with
        | some a, some d => some (a * 10 + d)
        | _, _ => none)
      (some 0)

/-- Python int applied to a string: an optional sign followed by decimal
digits (surrounding whitespace and digit-group underscores, which Python
also accepts, do not occur in this configuration field). -/
def pyToInt (s : String) : Option Int :=
  match s.toList with
  | [] => none
  | c :: rest =>
      if c = '-' then (parseDigits rest).map (fun n => -(n : Int))
      else if c = '+' then (parseDigits rest).map (fun n => (n : Int))
      else (parseDigits (c :: rest)).map (fun n => (n : Int))

/-- Validation prefix of execute_merge (lines 54-67): strip quotes from the
timeframe, require nonempty sources and channels, then require the timeframe
to parse as the integer 3, 7 or 14. The feed type is never inspected. -/
def validate_merge_input (data : MergeInput) : Except String MergeInput :=
  let tf := stripQuotes data.timeframe
  if data.sources = [] ∨ data.channels = [] then
    Except.error "Sources and channels required"
  else
    match pyToInt tf with
    | some n =>
        if n = 3 ∨ n = 7 ∨ n = 14 then Except.ok { data with timeframe := tf }
        else Except.error "Timeframe must be 3, 7, or 14 days"
    | none => Except.error "Invalid timeframe"

/-- folder_map lookup of lines 238-243: folder_map.get(timeframe, empty
dict).get(feed_type, default folder). Any feed type other than iptv or
gracenote, and any timeframe outside 3, 7, 14, yields the default 3dayiptv. -/
def folderFor (timeframe feed_type : String) : String :=
  if timeframe = "3" then
    if feed_type = "iptv" then "3dayiptv"
    else if feed_type = "gracenote" then "3daygracenote"
    else "3dayiptv"
  else if timeframe = "7" then
    if feed_type = "iptv" then "7dayiptv"
    else if feed_type = "gracenote" then "7daygracenote"
    else "3dayiptv"
  else if timeframe = "14" then
    if feed_type = "iptv" then "14dayiptv"
    else if feed_type = "gracenote" then "14daygracenote"
    else "3dayiptv"
  else "3dayiptv"

/-! ## Temporary directory clearing
Embedding of the STEP 0 block of execute_merge (lines 69-78) and the overall
phase ordering of execute_merge (validation, STEP 0, PHASE 1 download,
PHASE 2 merge). -/

/-- Whether pat occurs as a contiguous run inside s. -/
def charsContain (pat : List Char) : List Char → Bool
  | [] => decide (pat = [])
  | c :: rest => pat.isPrefixOf (c :: rest) || charsContain pat rest

/-- The glob pattern of line 74. A name matches the pattern star dot xml dot
gz star exactly when dot xml dot gz occurs inside it, since a glob star also
matches the empty run. -/
def tmpPatternMatches (name : String) : Bool :=
  charsContain ".xml.gz".toList name.toList

/-- The unlink loop of lines 74-75: every file of the temporary directory
matching the pattern is removed. -/
def clear_old_temp_files (tmpFiles : List String) : List String :=
  tmpFiles.filter (fun n => ! tmpPatternMatches n)

/-- Observable outcome of one execute_merge invocation on the temporary
directory. clearedBeforeDownload records whether STEP 0 ran before PHASE 1;
tmpAfterValidation is the directory listing at the moment PHASE 1 would
start; failed records whether the invocation raised. -/
structure MergeRunTrace where
  clearedBeforeDownload : Bool
  tmpAfterValidation : List String
  failed : Bool
deriving DecidableEq

/-- Control-flow skeleton of execute_merge (lines 45-108): the validation of
lines 54-67 runs first and raises without touching the temporary directory;
only then STEP 0 clears it, after which PHASE 1 downloads. downloadOk models
whether any source file was obtained (line 100 raises otherwise). -/
def execute_merge_trace (data : MergeInput) (tmpFiles : List String)
    (downloadOk : Bool) : MergeRunTrace :=
  match validate_merge_input data with
  | Except.error _ => ⟨false, tmpFiles, true⟩
  | Except.ok _ => ⟨true, clear_old_temp_files tmpFiles, ! downloadOk⟩

/-! ## Cache file replacement
Embedding of the cache write of _download_sources line 304, as a trace of
file-system operations with the observable intermediate contents of a
sequential write. -/

/-- Primitive file-system operations. writeAll p c is Path.write_bytes:
open for writing (truncate) then write c sequentially into p. rename is the
atomic POSIX rename. -/
inductive FsOp where
  | writeAll (path : String) (content : List Nat)
  | rename (src dst : String)
deriving DecidableEq

/-- A file store: association of paths to byte lists. -/
structure Fs where
  files : List (String × List Nat)
deriving DecidableEq

def Fs.read (fs : Fs) (p : String) : List Nat :=
  match fs.files.find? (fun kv => kv.fst == p) with
  | some kv => kv.snd
  | none => []

def Fs.update (fs : Fs) (p : String) (c : List Nat) : Fs :=
  ⟨(p, c) :: fs.files.filter (fun kv => ! (kv.fst == p))⟩

/-- Final store after one operation. -/
def execFsOp (fs : Fs) : FsOp → Fs
  | .writeAll p c => fs.update p c
  | .rename s d => (fs.update d (fs.read s)).update s []

/-- Stores observable strictly during one operation: a sequential write
exposes every prefix of the new content, from the truncated empty file
upward; a rename exposes nothing intermediate. -/
def midStates (fs : Fs) : FsOp → List Fs
  | .writeAll p c => (List.range (c.length + 1)).map (fun k => fs.update p (c.take k))
  | .rename _ _ => []

/-- All stores observable while running a trace of operations, including the
initial and final ones. -/
def traceStates (fs : Fs) : List FsOp → List Fs
  | [] => [fs]
  | op :: rest => fs :: (midStates fs op ++ traceStates (execFsOp fs op) rest)

/-- The cache update the code performs on re-download (line 304): one direct
write_bytes of the response body to the final cache path. No temporary file
and no rename are involved. -/
def cacheUpdateOps (cachePath : String) (content : List Nat) : List FsOp :=
  [FsOp.writeAll cachePath content]

/-! ## Archive version store
Embedding of MergeService.save_merge (merge_service.py lines 348-464) at the
file level. -/

/-- A file with its last-modified time in whole seconds. -/
structure FileEntry where
  name : String
  mtime : Nat
deriving DecidableEq

/-- The strftime format of line 391 renders an mtime at second granularity;
it is modelled by the decimal seconds value, which is likewise injective on
second-granularity times. -/
def timestampSuffix (mtime : Nat) : String := toString mtime

/-- Line 392: the archive name is the current file name, a dot, and the
timestamp of that file own mtime. -/
def archiveNameOf (f : FileEntry) : String :=
  f.name ++ "." ++ timestampSuffix f.mtime

/-- shutil.move into the archive directory overwrites an existing file of
the same name, so a name is added only when not already present. -/
def addName (names : List String) (n : String) : List String :=
  if n ∈ names then names else names ++ [n]

/-- State of the current and archive directories. currentFiles lists the
merged output files of the current directory (all match the glob of line
388); archiveNames lists the distinct archived file names. -/
structure StoreState where
  currentFiles : List FileEntry
  archiveNames : List String
deriving DecidableEq

/-- save_merge on the file level. Requires that the temporary merged file
exists (line 374); tmpMtime is its mtime. STEP 1 (lines 388-397) moves every
current file into the archive under its own-mtime timestamp name; STEP 2
(line 432) copies the temporary file to the current directory, shutil.copy2
preserving its mtime. now is the promotion wall-clock time; the code never
uses it to name anything. -/
def save_merge (output_filename : String) (tmpMtime now : Nat)
    (st : StoreState) : StoreState :=
  { currentFiles := [⟨output_filename, tmpMtime⟩],
    archiveNames :=
      st.currentFiles.foldl (fun acc f => addName acc (archiveNameOf f)) st.archiveNames }

/-- N successive promotions; the k-th merge leaves a temporary file with the
k-th mtime of the list. -/
def promoteMany (output_filename : String) (tmpMtimes : List Nat) (now : Nat)
    (st : StoreState) : StoreState :=
  tmpMtimes.foldl (fun s t => save_merge output_filename t now s) st

/-- The sequence of archive names that the promotions create: first the
pre-existing current file under its own mtime, then each intermediate output
under the mtime of the merge that produced it. -/
def archivedChain (out : String) : FileEntry → List Nat → List String
  | _, [] => []
  | f, t :: ts => archiveNameOf f :: archivedChain out ⟨out, t⟩ ts

/-- The current file left standing after the promotions. -/
def lastCurrent (out : String) (f : FileEntry) (ts : List Nat) : FileEntry :=
  ts.foldl (fun _ t => ⟨out, t⟩) f

/-! ## Job controller: crash recovery
Embedding of ScheduledJobService._cleanup_stuck_jobs (job_service.py lines
134-169) and its startup call from init_job_history_table (line 128). -/

/-- A persisted row of the job_history table; started_at and completed_at are
ISO timestamps, modelled in whole seconds (lexicographic comparison of equal
format ISO strings agrees with numeric comparison). -/
structure JobRecord where
  job_id : String
  status : String
  started_at : Nat
  completed_at : Option Nat
  error_message : Option String
deriving DecidableEq

def recoveryMessage : String := "Auto-recovered: Job was stuck in RUNNING state"

/-- The UPDATE of lines 142-160: every row in status running whose started_at
is strictly before now minus the threshold becomes failed with completed_at
now and the recovery message; every other row is untouched. -/
def cleanup_stuck_jobs (thresholdHours now : Nat) (jobs : List JobRecord) :
    List JobRecord :=
  jobs.map fun j =>
    if j.status = "running" ∧ j.started_at < now - thresholdHours * 3600 then
      { j with status := "failed", completed_at := some now,
               error_message := some recoveryMessage }
    else j

/-- The startup scan: init_job_history_table (line 128) calls the cleanup
with its default threshold of 2 hours (line 134). -/
def startup_stuck_scan (now : Nat) (jobs : List JobRecord) : List JobRecord :=
  cleanup_stuck_jobs 2 now jobs

/-! ## Job controller: the cancel endpoint
Embedding of the fields of ScheduledJobService that the cancel endpoint
reads (job_service.py lines 88-89, 291, 487-488) and of the handler
cancel_running_job (routers/jobs.py lines 112-148). -/

/-- The two module-level flags; current_job_task is an optional handle to an
asyncio task, modelled by an optional task id. -/
structure JobControllerState where
  is_job_running : Bool
  current_job_task : Option Nat
deriving DecidableEq

inductive CancelResponse where
  | no_job
  | cancelled
deriving DecidableEq

/-- The handler body of routers/jobs.py lines 126-145: when the running flag
is off or no task handle is stored, answer no_job and change nothing; else
cancel the task, clear both flags and answer cancelled. -/
def cancel_running_job (st : JobControllerState) :
    CancelResponse × JobControllerState :=
  if st.is_job_running = false ∨ st.current_job_task = none then
    (CancelResponse.no_job, st)
  else
    (CancelResponse.cancelled, ⟨false, none⟩)

/-- Events that touch the two flags anywhere in the code base. startJob is
the entry of execute_scheduled_merge (line 291), which sets is_job_running
and stores nothing in current_job_task; no call site wraps the job in a task
object, so no event ever assigns it. finishJob is the finally block (lines
487-488). cancelRequest is the endpoint above. -/
inductive JobEvent where
  | startJob
  | finishJob
  | cancelRequest
deriving DecidableEq

def jobStep (st : JobControllerState) : JobEvent → JobControllerState
  | .startJob => { st with is_job_running := true }
  | .finishJob => ⟨false, none⟩
  | .cancelRequest => (cancel_running_job st).snd

/-- The constructor state of lines 88-89. -/
def initialJobState : JobControllerState := ⟨false, none⟩

/-- The controller state after any sequence of events from startup. -/
def runJobEvents (evs : List JobEvent) : JobControllerState :=
  evs.foldl jobStep initialJobState

/-! ## Helper lemmas -/

theorem foldl_fixed_of_mem {α β : Type} (f : β → α → β) (b : β) :
    ∀ (l : List α), (∀ a ∈ l, f b a = b) → l.foldl f b = b
  | [], _ => rfl
  | a :: l, h => by
      have ha : f b a = b := h a (List.mem_cons_self a l)
      have hl : ∀ x ∈ l, f b x = b := fun x hx => h x (List.mem_cons_of_mem a hx)
      simp only [List.foldl_cons, ha]
      exact foldl_fixed_of_mem f b l hl

theorem mem_channelsSeen_processElem (keep : List String) (st : MergeState)
    (e : Elem) (c : String) (h : c ∈ st.channelsSeen) :
    c ∈ (processElem keep st e).channelsSeen := by
  cases e with
  | channel id =>
      cases id with
      | some cid =>
          by_cases hc : cid ∈ keep ∧ cid ∉ st.channelsSeen
          · simp only [processElem, if_pos hc]
            exact List.mem_append_left _ h
          · simp only [processElem, if_neg hc]; exact h
      | none => exact h
  | programme ch s t =>
      cases ch with
      | some cid =>
          by_cases hc : cid ∈ st.channelsSeen
          · by_cases hk : progKey cid s t ∈ st.programmesSeen
            · simp only [processElem, if_pos hc, if_pos hk]; exact h
            · simp only [processElem, if_pos hc, if_neg hk]; exact h
          · simp only [processElem, if_neg hc]; exact h
      | none => exact h
  | other => exact h

theorem mem_channelsSeen_processFile (keep : List String) (c : String) :
    ∀ (file : List Elem) (st : MergeState), c ∈ st.channelsSeen →
      c ∈ (processFile keep st file).channelsSeen
  | [], _, h => h
  | e :: file, st, h => by
      simp only [processFile, List.foldl_cons]
      exact mem_channelsSeen_processFile keep c file (processElem keep st e)
        (mem_channelsSeen_processElem keep st e c h)

theorem mem_programmesSeen_processElem (keep : List String) (st : MergeState)
    (e : Elem) (k : String × String × Option String)
    (h : k ∈ st.programmesSeen) : k ∈ (processElem keep st e).programmesSeen := by
  cases e with
  | channel id =>
      cases id with
      | some cid =>
          by_cases hc : cid ∈ keep ∧ cid ∉ st.channelsSeen
          · simp only [processElem, if_pos hc]; exact h
          · simp only [processElem, if_neg hc]; exact h
      | none => exact h
  | programme ch s t =>
      cases ch with
      | some cid =>
          by_cases hc : cid ∈ st.channelsSeen
          · by_cases hk : progKey cid s t ∈ st.programmesSeen
            · simp only [processElem, if_pos hc, if_pos hk]; exact h
            · simp only [processElem, if_pos hc, if_neg hk]
              exact List.mem_append_left _ h
          · simp only [processElem, if_neg hc]; exact h
      | none => exact h
  | other => exact h

theorem mem_programmesSeen_processFile (keep : List String)
    (k : String × String × Option String) :
    ∀ (file : List Elem) (st : MergeState), k ∈ st.programmesSeen →
      k ∈ (processFile keep st file).programmesSeen
  | [], _, h => h
  | e :: file, st, h => by
      simp only [processFile, List.foldl_cons]
      exact mem_programmesSeen_processFile keep k file (processElem keep st e)
        (mem_programmesSeen_processElem keep st e k h)

theorem channelsSeen_processElem_of_not_channel (keep : List String)
    (st : MergeState) (e : Elem) (h : e.isChannel = false) :
    (processElem keep st e).channelsSeen = st.channelsSeen := by
  cases e with
  | channel id => simp [Elem.isChannel] at h
  | programme ch s t =>
      cases ch with
      | some cid =>
          by_cases hc : cid ∈ st.channelsSeen
          · by_cases hk : progKey cid s t ∈ st.programmesSeen
            · simp only [processElem, if_pos hc, if_pos hk]
            · simp only [processElem, if_pos hc, if_neg hk]
          · simp only [processElem, if_neg hc]
      | none => rfl
  | other => rfl

theorem channelsSeen_processFile_of_no_channel (keep : List String) :
    ∀ (file : List Elem) (st : MergeState),
      (∀ e ∈ file, e.isChannel = false) →
      (processFile keep st file).channelsSeen = st.channelsSeen
  | [], _, _ => rfl
  | e :: file, st, h => by
      have h1 := channelsSeen_processFile_of_no_channel keep file
        (processElem keep st e) (fun x hx => h x (List.mem_cons_of_mem e hx))
      have h2 := channelsSeen_processElem_of_not_channel keep st e
        (h e (List.mem_cons_self e file))
      show (processFile keep (processElem keep st e) file).channelsSeen = st.channelsSeen
      exact h1.trans h2

theorem mergeInv_processElem (keep : List String) (st : MergeState) (e : Elem)
    (h : MergeInv keep st) : MergeInv keep (processElem keep st e) := by
  obtain ⟨h1, h2⟩ := h
  cases e with
  | channel id =>
      cases id with
      | some cid =>
          by_cases hc : cid ∈ keep ∧ cid ∉ st.channelsSeen
          · simp only [processElem, if_pos hc]
            constructor
            · intro c hcmem
              rcases List.mem_append.mp hcmem with hold | hnew
              · obtain ⟨hk, hm⟩ := h1 c hold
                exact ⟨hk, List.mem_append_left _ hm⟩
              · have : c = cid := by simpa using hnew
                subst this
                exact ⟨hc.1, List.mem_append_right _ (by simp)⟩
            · intro ch s t hmem
              rcases List.mem_append.mp hmem with hold | hnew
              · obtain ⟨c, hceq, hcmem⟩ := h2 ch s t hold
                exact ⟨c, hceq, List.mem_append_left _ hcmem⟩
              · simp at hnew
          · simp only [processElem, if_neg hc]
            exact ⟨h1, h2⟩
      | none => exact ⟨h1, h2⟩
  | programme ch s t =>
      cases ch with
      | some cid =>
          by_cases hc : cid ∈ st.channelsSeen
          · by_cases hk : progKey cid s t ∈ st.programmesSeen
            · simp only [processElem, if_pos hc, if_pos hk]
              exact ⟨h1, h2⟩
            · simp only [processElem, if_pos hc, if_neg hk]
              constructor
              · intro c hcmem
                obtain ⟨hkc, hm⟩ := h1 c hcmem
                exact ⟨hkc, List.mem_append_left _ hm⟩
              · intro ch0 s0 t0 hmem
                rcases List.mem_append.mp hmem with hold | hnew
                · exact h2 ch0 s0 t0 hold
                · have : Elem.programme ch0 s0 t0 = Elem.programme (some cid) s t := by
                    simpa using hnew
                  obtain ⟨he, -, -⟩ := Elem.programme.inj this
                  exact ⟨cid, he, hc⟩
          · simp only [processElem, if_neg hc]
            exact ⟨h1, h2⟩
      | none => exact ⟨h1, h2⟩
  | other => exact ⟨h1, h2⟩

theorem mergeInv_processFile (keep : List String) :
    ∀ (file : List Elem) (st : MergeState), MergeInv keep st →
      MergeInv keep (processFile keep st file)
  | [], _, h => h
  | e :: file, st, h => by
      simp only [processFile, List.foldl_cons]
      exact mergeInv_processFile keep file (processElem keep st e)
        (mergeInv_processElem keep st e h)

theorem mergeInv_initState (keep : List String) : MergeInv keep initState := by
  constructor
  · intro c hc; simp [initState] at hc
  · intro ch s t hmem; simp [initState] at hmem

theorem mergeInv_mergeFiles (keep : List String) :
    ∀ (files : List (List Elem)) (st : MergeState), MergeInv keep st →
      MergeInv keep (files.foldl (processFile keep) st)
  | [], _, h => h
  | f :: files, st, h => by
      simp only [List.foldl_cons]
      exact mergeInv_mergeFiles keep files (processFile keep st f)
        (mergeInv_processFile keep f st h)

theorem processElem_channel_seen (keep : List String) (st : MergeState)
    (c : String) (h : c ∈ st.channelsSeen) :
    processElem keep st (Elem.channel (some c)) = st := by
  simp only [processElem]
  rw [if_neg]
  exact fun hc => hc.2 h

theorem processElem_channel_not_kept (keep : List String) (st : MergeState)
    (c : String) (h : c ∉ keep) :
    processElem keep st (Elem.channel (some c)) = st := by
  simp only [processElem]
  rw [if_neg]
  exact fun hc => h hc.1

theorem processElem_programme_channel_unseen (keep : List String)
    (st : MergeState) (c : String) (s : Option String)
    (t : Option (Option String)) (h : c ∉ st.channelsSeen) :
    processElem keep st (Elem.programme (some c) s t) = st := by
  simp only [processElem, if_neg h]

theorem processElem_programme_key_seen (keep : List String) (st : MergeState)
    (c : String) (s : Option String) (t : Option (Option String))
    (hc : c ∈ st.channelsSeen) (hk : progKey c s t ∈ st.programmesSeen) :
    processElem keep st (Elem.programme (some c) s t) = st := by
  simp only [processElem, if_pos hc, if_pos hk]

theorem channel_mem_channelsSeen_processFile (keep : List String) (c : String)
    (hkeep : c ∈ keep) :
    ∀ (file : List Elem) (st : MergeState), Elem.channel (some c) ∈ file →
      c ∈ (processFile keep st file).channelsSeen
  | [], _, hmem => absurd hmem (List.not_mem_nil _)
  | e :: file, st, hmem => by
      rcases List.mem_cons.mp hmem with heq | htail
      · subst heq
        show c ∈ (processFile keep (processElem keep st (Elem.channel (some c))) file).channelsSeen
        apply mem_channelsSeen_processFile
        by_cases hc : c ∈ st.channelsSeen
        · rw [processElem_channel_seen keep st c hc]; exact hc
        · simp only [processElem, if_pos (And.intro hkeep hc)]
          exact List.mem_append_right _ (by simp)
      · exact channel_mem_channelsSeen_processFile keep c hkeep file
          (processElem keep st e) htail

theorem key_mem_programmesSeen_processFile (keep : List String) (c : String)
    (s : Option String) (t : Option (Option String)) :
    ∀ (file : List Elem) (st : MergeState),
      (∀ e ∈ file, e.isChannel = false) →
      Elem.programme (some c) s t ∈ file → c ∈ st.channelsSeen →
      progKey c s t ∈ (processFile keep st file).programmesSeen
  | [], _, _, hmem, _ => absurd hmem (List.not_mem_nil _)
  | e :: file, st, hnc, hmem, hc => by
      rcases List.mem_cons.mp hmem with heq | htail
      · subst heq
        show progKey c s t ∈
          (processFile keep (processElem keep st (Elem.programme (some c) s t)) file).programmesSeen
        apply mem_programmesSeen_processFile
        by_cases hk : progKey c s t ∈ st.programmesSeen
        · rw [processElem_programme_key_seen keep st c s t hc hk]; exact hk
        · simp only [processElem, if_pos hc, if_neg hk]
          exact List.mem_append_right _ (by simp)
      · have hstep : (processElem keep st e).channelsSeen = st.channelsSeen :=
          channelsSeen_processElem_of_not_channel keep st e
            (hnc e (List.mem_cons_self e file))
        exact key_mem_programmesSeen_processFile keep c s t file
          (processElem keep st e)
          (fun x hx => hnc x (List.mem_cons_of_mem e hx)) htail
          (hstep ▸ hc)

theorem processFile_append (keep : List String) (st : MergeState)
    (l1 l2 : List Elem) :
    processFile keep st (l1 ++ l2) = processFile keep (processFile keep st l1) l2 := by
  simp [processFile, List.foldl_append]

/-- Re-processing a channels-first file on top of the state it produced is
the identity: every element of the file is skipped the second time. -/
theorem processFile_twice_of_channels_first (keep : List String)
    (C P : List Elem) (hC : ∀ e ∈ C, e.isProgramme = false)
    (hP : ∀ e ∈ P, e.isChannel = false) :
    processFile keep (processFile keep initState (C ++ P)) (C ++ P) =
      processFile keep initState (C ++ P) := by
  set st1 := processFile keep initState (C ++ P) with hst1
  apply foldl_fixed_of_mem
  intro e hmem
  rcases List.mem_append.mp hmem with hc | hp
  · cases e with
    | channel id =>
        cases id with
        | some cid =>
            by_cases hkeep : cid ∈ keep
            · apply processElem_channel_seen
              rw [hst1]
              exact channel_mem_channelsSeen_processFile keep cid hkeep (C ++ P)
                initState (List.mem_append_left _ hc)
            · exact processElem_channel_not_kept keep st1 cid hkeep
        | none => rfl
    | programme ch s t =>
        have := hC _ hc
        simp [Elem.isProgramme] at this
    | other => rfl
  · cases e with
    | channel id =>
        have := hP _ hp
        simp [Elem.isChannel] at this
    | programme ch s t =>
        cases ch with
        | some cid =>
            by_cases hcs : cid ∈ st1.channelsSeen
            · apply processElem_programme_key_seen keep st1 cid s t hcs
              have hsplit : st1 = processFile keep (processFile keep initState C) P := by
                rw [hst1, processFile_append]
              have hchan : st1.channelsSeen =
                  (processFile keep initState C).channelsSeen := by
                rw [hsplit]
                exact channelsSeen_processFile_of_no_channel keep P _ hP
              rw [hsplit]
              exact key_mem_programmesSeen_processFile keep cid s t P
                (processFile keep initState C) hP hp (by rw [← hchan]; exact hcs)
            · exact processElem_programme_channel_unseen keep st1 cid s t hcs
        | none => rfl
    | other => rfl

/-! ## Claim theorems -/

/-- C5: for every programme element reached with its channel id already in
the seen-channel set, the deduplication key is the tuple of channel id, start
attribute (empty string when absent) and computed title text (empty string
when the title child is absent); its first occurrence is appended to the
output and recorded, and every later element with the same key leaves the
state unchanged, so it is silently discarded. -/
theorem programme_dedup_key_first_wins (keep : List String) (st : MergeState)
    (ch : String) (s : Option String) (t : Option (Option String))
    (hch : ch ∈ st.channelsSeen) :
    (progKey ch s t = (ch, s.getD "", titleValue t)) ∧
    ((ch, s.getD "", titleValue t) ∉ st.programmesSeen →
      processElem keep st (Elem.programme (some ch) s t) =
        { st with merged := st.merged ++ [Elem.programme (some ch) s t],
                  programmesSeen := st.programmesSeen ++ [(ch, s.getD "", titleValue t)] }) ∧
    ((ch, s.getD "", titleValue t) ∈ st.programmesSeen →
      processElem keep st (Elem.programme (some ch) s t) = st) := by
  refine ⟨rfl, ?_, ?_⟩
  · intro hk
    have hnk : progKey ch s t ∉ st.programmesSeen := by simpa [progKey] using hk
    simp only [processElem, if_pos hch, if_neg hnk]
    rfl
  · intro hk
    have hpk : progKey ch s t ∈ st.programmesSeen := by simpa [progKey] using hk
    simp only [processElem, if_pos hch, if_pos hpk]

/-- C5 witness at a concrete state. -/
theorem programme_dedup_key_first_wins_witness :
    ("bbc1" ∈ (⟨[Elem.channel (some "bbc1")], ["bbc1"], []⟩ : MergeState).channelsSeen) ∧
    (progKey "bbc1" (some "20250101") none = ("bbc1", "20250101", some "")) ∧
    ((("bbc1", "20250101", some "") ∉
        (⟨[Elem.channel (some "bbc1")], ["bbc1"], []⟩ : MergeState).programmesSeen) →
      processElem ["bbc1"] ⟨[Elem.channel (some "bbc1")], ["bbc1"], []⟩
          (Elem.programme (some "bbc1") (some "20250101") none) =
        { merged := [Elem.channel (some "bbc1")] ++
            [Elem.programme (some "bbc1") (some "20250101") none],
          channelsSeen := ["bbc1"],
          programmesSeen := [] ++ [("bbc1", "20250101", some "")] }) ∧
    ((("bbc1", "20250101", some "") ∈
        (⟨[Elem.channel (some "bbc1")], ["bbc1"], []⟩ : MergeState).programmesSeen) →
      processElem ["bbc1"] ⟨[Elem.channel (some "bbc1")], ["bbc1"], []⟩
          (Elem.programme (some "bbc1") (some "20250101") none) =
        ⟨[Elem.channel (some "bbc1")], ["bbc1"], []⟩) :=
  ⟨by decide,
   programme_dedup_key_first_wins ["bbc1"]
     ⟨[Elem.channel (some "bbc1")], ["bbc1"], []⟩
     "bbc1" (some "20250101") none (by decide)⟩

/-- C6: every programme element in the merged output carries a channel
attribute that is the id of a channel element kept in that same output, and
that id is a member of the keep list supplied by the caller; no orphaned
programmes appear. -/
theorem no_orphan_programmes (keep : List String) (files : List (List Elem))
    (ch : Option String) (s : Option String) (t : Option (Option String))
    (hmem : Elem.programme ch s t ∈ (mergeFiles keep files).merged) :
    ∃ c, ch = some c ∧ c ∈ keep ∧
      Elem.channel (some c) ∈ (mergeFiles keep files).merged := by
  have hinv : MergeInv keep (mergeFiles keep files) :=
    mergeInv_mergeFiles keep files initState (mergeInv_initState keep)
  obtain ⟨c, hceq, hcmem⟩ := hinv.2 ch s t hmem
  obtain ⟨hkeep, hchan⟩ := hinv.1 c hcmem
  exact ⟨c, hceq, hkeep, hchan⟩

/-- C6 witness on a concrete merge. -/
theorem no_orphan_programmes_witness :
    (Elem.programme (some "bbc1") (some "20250101") none ∈
      (mergeFiles ["bbc1"]
        [[Elem.channel (some "bbc1"),
          Elem.programme (some "bbc1") (some "20250101") none]]).merged) ∧
    ∃ c, (some "bbc1" : Option String) = some c ∧ c ∈ ["bbc1"] ∧
      Elem.channel (some c) ∈
        (mergeFiles ["bbc1"]
          [[Elem.channel (some "bbc1"),
            Elem.programme (some "bbc1") (some "20250101") none]]).merged :=
  ⟨by decide,
   no_orphan_programmes ["bbc1"]
     [[Elem.channel (some "bbc1"),
       Elem.programme (some "bbc1") (some "20250101") none]]
     (some "bbc1") (some "20250101") none (by decide)⟩

/-- C7 counterexample: the claim as stated is false. In a file where a
programme for channel c precedes the channel element with id c, merging the
file once keeps the channel but drops the programme (counts 1 and 0), while
merging the file twice picks the programme up on the second pass (counts 1
and 1), so duplicating the source file changes programs_included. -/
theorem duplicate_file_changes_counts :
    programsIncluded ["c"]
        [[Elem.programme (some "c") (some "s") none, Elem.channel (some "c")],
         [Elem.programme (some "c") (some "s") none, Elem.channel (some "c")]] ≠
      programsIncluded ["c"]
        [[Elem.programme (some "c") (some "s") none, Elem.channel (some "c")]] := by
  decide

/-- C7 amended: for every source file in which every channel element precedes
every programme element (the layout the feeds use), merging a source list in
which that file appears twice yields the same channels-included and
programs-included counts as merging the list in which it appears once. -/
theorem dedup_idempotent_of_channels_first (keep : List String)
    (C P : List Elem) (hC : ∀ e ∈ C, e.isProgramme = false)
    (hP : ∀ e ∈ P, e.isChannel = false) :
    channelsIncluded keep [C ++ P, C ++ P] = channelsIncluded keep [C ++ P] ∧
    programsIncluded keep [C ++ P, C ++ P] = programsIncluded keep [C ++ P] := by
  have hmain : mergeFiles keep [C ++ P, C ++ P] = mergeFiles keep [C ++ P] := by
    show processFile keep (processFile keep initState (C ++ P)) (C ++ P) =
      processFile keep initState (C ++ P)
    exact processFile_twice_of_channels_first keep C P hC hP
  constructor
  · simp only [channelsIncluded, hmain]
  · simp only [programsIncluded, hmain]

/-- C7 witness on a concrete channels-first file. -/
theorem dedup_idempotent_of_channels_first_witness :
    (∀ e ∈ [Elem.channel (some "c")], Elem.isProgramme e = false) ∧
    (∀ e ∈ [Elem.programme (some "c") (some "s") none], Elem.isChannel e = false) ∧
    (channelsIncluded ["c"]
        [[Elem.channel (some "c")] ++ [Elem.programme (some "c") (some "s") none],
         [Elem.channel (some "c")] ++ [Elem.programme (some "c") (some "s") none]] =
      channelsIncluded ["c"]
        [[Elem.channel (some "c")] ++ [Elem.programme (some "c") (some "s") none]] ∧
    programsIncluded ["c"]
        [[Elem.channel (some "c")] ++ [Elem.programme (some "c") (some "s") none],
         [Elem.channel (some "c")] ++ [Elem.programme (some "c") (some "s") none]] =
      programsIncluded ["c"]
        [[Elem.channel (some "c")] ++ [Elem.programme (some "c") (some "s") none]]) :=
  ⟨by decide, by decide,
   dedup_idempotent_of_channels_first ["c"]
     [Elem.channel (some "c")] [Elem.programme (some "c") (some "s") none]
     (by decide) (by decide)⟩

/-- C1 counterexample: the claim as stated is false. For a source whose
cache file exists with age one hour (younger than 24 hours), the loop still
issues a network call: the HEAD request of line 271 is sent, so the list of
network calls is not empty. -/
theorem fresh_cache_still_issues_head :
    (1 : Nat) < 24 ∧
    downloadCalls true 100 1 (some (200, 100)) ≠ [] := by
  constructor
  · decide
  · decide

/-- C1 amended: for every source whose local cache file exists (in
particular one younger than 24 hours), the loop always issues exactly one
HEAD request and reuses the cached file without a GET precisely when the
HEAD answers 200 with a content-length equal to the local size; the file age
never influences the decision. -/
theorem head_always_issued_when_cache_exists (localSize age age2 : Nat)
    (headResponse : Option (Nat × Nat)) :
    NetCall.headCall ∈ downloadCalls true localSize age headResponse ∧
    downloadCalls true localSize age headResponse =
      downloadCalls true localSize age2 headResponse ∧
    (downloadCalls true localSize age headResponse = [NetCall.headCall] ↔
      headResponse = some (200, localSize)) := by
  refine ⟨?_, rfl, ?_⟩
  · cases headResponse with
    | none => simp [downloadCalls]
    | some p =>
        obtain ⟨status, remoteSize⟩ := p
        by_cases h : status = 200 ∧ remoteSize = localSize
        · simp [downloadCalls, if_pos h]
        · simp [downloadCalls, if_neg h]
  · cases headResponse with
    | none => simp [downloadCalls]
    | some p =>
        obtain ⟨status, remoteSize⟩ := p
        by_cases h : status = 200 ∧ remoteSize = localSize
        · simp only [downloadCalls, if_pos h, if_pos (Or.inl rfl)]
          simp [h.1, h.2]
        · simp only [downloadCalls, if_pos (Or.inl rfl), if_neg h]
          constructor
          · intro habs; simp at habs
          · intro heq
            obtain ⟨h1, h2⟩ := Prod.mk.injEq .. ▸ Option.some.inj heq
            exact absurd ⟨h1, h2⟩ h

/-- C3 counterexample: the claim as stated is false. With nonempty sources
and channels, timeframe 3 and the out-of-range feed type bogus, validation
succeeds (no error is raised before I/O) and the folder lookup silently
substitutes the default folder 3dayiptv mid-run. -/
theorem feed_type_bogus_passes_validation :
    validate_merge_input ⟨["a.xml.gz"], ["c"], "3", "bogus"⟩ =
      Except.ok ⟨["a.xml.gz"], ["c"], "3", "bogus"⟩ ∧
    folderFor "3" "bogus" = "3dayiptv" ∧
    ("bogus" ≠ "iptv" ∧ "bogus" ≠ "gracenote") := by
  refine ⟨?_, by decide, by decide⟩
  rfl

/-- C3 amended: empty source or channel lists and malformed or out-of-range
timeframes abort the merge before any I/O with a clear error, but a feed
type that is neither iptv nor gracenote is not rejected: validation succeeds
and the download folder silently defaults to 3dayiptv mid-run. -/
theorem unknown_feed_type_silently_defaults (data : MergeInput)
    (hs : data.sources ≠ []) (hc : data.channels ≠ [])
    (htf : stripQuotes data.timeframe = "3" ∨ stripQuotes data.timeframe = "7" ∨
      stripQuotes data.timeframe = "14")
    (hft : data.feed_type ≠ "iptv" ∧ data.feed_type ≠ "gracenote") :
    validate_merge_input data = Except.ok { data with timeframe := stripQuotes data.timeframe } ∧
    folderFor (stripQuotes data.timeframe) data.feed_type = "3dayiptv" ∧
    validate_merge_input { data with sources := [] } =
      Except.error "Sources and channels required" := by
  refine ⟨?_, ?_, ?_⟩
  · simp only [validate_merge_input]
    rw [if_neg (by simp [hs, hc])]
    rcases htf with h | h | h <;> rw [h] <;> rfl
  · rcases htf with h | h | h <;> rw [h] <;>
      simp [folderFor, hft.1, hft.2]
  · simp [validate_merge_input]

/-- C3 witness at a concrete input. -/
theorem unknown_feed_type_silently_defaults_witness :
    ((["a.xml.gz"] : List String) ≠ [] ∧ (["c"] : List String) ≠ [] ∧
      (stripQuotes "7" = "3" ∨ stripQuotes "7" = "7" ∨ stripQuotes "7" = "14") ∧
      ("atsc" ≠ "iptv" ∧ "atsc" ≠ "gracenote")) ∧
    (validate_merge_input ⟨["a.xml.gz"], ["c"], "7", "atsc"⟩ =
        Except.ok { MergeInput.mk ["a.xml.gz"] ["c"] "7" "atsc" with
          timeframe := stripQuotes "7" } ∧
      folderFor (stripQuotes "7") "atsc" = "3dayiptv" ∧
      validate_merge_input { MergeInput.mk ["a.xml.gz"] ["c"] "7" "atsc" with
          sources := [] } = Except.error "Sources and channels required") :=
  ⟨⟨by decide, by decide, by decide, by decide, by decide⟩,
   unknown_feed_type_silently_defaults ⟨["a.xml.gz"], ["c"], "7", "atsc"⟩
     (by decide) (by decide) (by decide) (by decide)⟩

/-- C10 counterexample: the claim as stated is false. An invocation whose
input fails validation (here an empty source list) raises before STEP 0, so
nothing is cleared and the previous temporary output old.xml.gz, which
matches the glob pattern, is still present and downloadable. -/
theorem invalid_input_skips_temp_clear :
    (execute_merge_trace ⟨[], ["c"], "3", "iptv"⟩ ["old.xml.gz"] true).clearedBeforeDownload
        = false ∧
    "old.xml.gz" ∈
      (execute_merge_trace ⟨[], ["c"], "3", "iptv"⟩ ["old.xml.gz"] true).tmpAfterValidation ∧
    tmpPatternMatches "old.xml.gz" = true ∧
    (execute_merge_trace ⟨[], ["c"], "3", "iptv"⟩ ["old.xml.gz"] true).failed = true := by
  decide

/-- C10 amended: every invocation whose input passes validation deletes
every file matching the glob pattern from the temporary directory before
downloading or merging anything, so the temporary output of a previous
merge ceases to exist as soon as the new merge clears it, even if the new
merge later fails (for example because no source downloads succeed). -/
theorem valid_merge_clears_temp_before_download (data : MergeInput)
    (tmpFiles : List String) (downloadOk : Bool) (v : MergeInput)
    (hv : validate_merge_input data = Except.ok v) :
    (execute_merge_trace data tmpFiles downloadOk).clearedBeforeDownload = true ∧
    (∀ n ∈ (execute_merge_trace data tmpFiles downloadOk).tmpAfterValidation,
      tmpPatternMatches n = false) ∧
    (execute_merge_trace data tmpFiles false).tmpAfterValidation =
      (execute_merge_trace data tmpFiles downloadOk).tmpAfterValidation := by
  have htr : execute_merge_trace data tmpFiles downloadOk =
      ⟨true, clear_old_temp_files tmpFiles, ! downloadOk⟩ := by
    simp only [execute_merge_trace, hv]
  have htr2 : execute_merge_trace data tmpFiles false =
      ⟨true, clear_old_temp_files tmpFiles, ! false⟩ := by
    simp only [execute_merge_trace, hv]
  rw [htr, htr2]
  refine ⟨rfl, ?_, rfl⟩
  intro n hn
  have := (List.mem_filter.mp hn).2
  simpa using this

/-- C10 witness at a concrete valid input. -/
theorem valid_merge_clears_temp_before_download_witness :
    (validate_merge_input ⟨["a.xml.gz"], ["c"], "3", "iptv"⟩ =
      Except.ok ⟨["a.xml.gz"], ["c"], "3", "iptv"⟩) ∧
    ((execute_merge_trace ⟨["a.xml.gz"], ["c"], "3", "iptv"⟩
        ["old.xml.gz", "notes.txt"] false).clearedBeforeDownload = true ∧
     (∀ n ∈ (execute_merge_trace ⟨["a.xml.gz"], ["c"], "3", "iptv"⟩
        ["old.xml.gz", "notes.txt"] false).tmpAfterValidation,
        tmpPatternMatches n = false) ∧
     (execute_merge_trace ⟨["a.xml.gz"], ["c"], "3", "iptv"⟩
        ["old.xml.gz", "notes.txt"] false).tmpAfterValidation =
      (execute_merge_trace ⟨["a.xml.gz"], ["c"], "3", "iptv"⟩
        ["old.xml.gz", "notes.txt"] false).tmpAfterValidation) :=
  ⟨rfl,
   valid_merge_clears_temp_before_download ⟨["a.xml.gz"], ["c"], "3", "iptv"⟩
     ["old.xml.gz", "notes.txt"] false ⟨["a.xml.gz"], ["c"], "3", "iptv"⟩ rfl⟩

theorem Fs.read_update (fs : Fs) (p : String) (c : List Nat) :
    (fs.update p c).read p = c := by
  simp [Fs.read, Fs.update, List.find?_cons]

/-- C4 counterexample: the claim as stated is false. Updating a cache file
holding the byte 9 with the new body 1, 2 passes through an observable
store in which the cache file holds the single byte 1 — neither the
complete old content nor the complete new content. -/
theorem partial_cache_content_observable :
    ∃ s ∈ traceStates ⟨[("cache", [9])]⟩ (cacheUpdateOps "cache" [1, 2]),
      Fs.read s "cache" ≠ [9] ∧ Fs.read s "cache" ≠ [1, 2] := by
  decide

/-- C4 amended: when a source is re-downloaded the cache file is replaced by
a single in-place write to the final cache path, with no temporary file and
no rename; the observable contents of the cache file during the update are
the old content followed by every prefix of the new content, so a reader
observing mid-write can see partially written content. -/
theorem cache_overwrite_is_direct_write (fs : Fs) (cachePath : String)
    (content : List Nat) :
    ((traceStates fs (cacheUpdateOps cachePath content)).map
        (fun s => Fs.read s cachePath) =
      fs.read cachePath ::
        ((List.range (content.length + 1)).map (fun k => content.take k) ++ [content])) ∧
    (∀ src dst, FsOp.rename src dst ∉ cacheUpdateOps cachePath content) := by
  constructor
  · simp only [cacheUpdateOps, traceStates, midStates, execFsOp, List.map_cons,
      List.map_append, List.map_map, List.map_nil, Function.comp]
    simp [Fs.read_update]
  · intro src dst h
    simp [cacheUpdateOps] at h

theorem promoteMany_closed (out : String) (now : Nat) :
    ∀ (ts : List Nat) (f : FileEntry) (A : List String),
      promoteMany out ts now ⟨[f], A⟩ =
        ⟨[lastCurrent out f ts], List.foldl addName A (archivedChain out f ts)⟩
  | [], _, _ => rfl
  | t :: ts, f, A => by
      show promoteMany out ts now ⟨[⟨out, t⟩], addName A (archiveNameOf f)⟩ =
        ⟨[lastCurrent out ⟨out, t⟩ ts],
          List.foldl addName (addName A (archiveNameOf f)) (archivedChain out ⟨out, t⟩ ts)⟩
      exact promoteMany_closed out now ts ⟨out, t⟩ (addName A (archiveNameOf f))

theorem foldl_addName_eq_append :
    ∀ (names A : List String), names.Nodup → (∀ n ∈ names, n ∉ A) →
      List.foldl addName A names = A ++ names
  | [], A, _, _ => by simp
  | x :: names, A, hnd, hdisj => by
      have hx : x ∉ A := hdisj x (List.mem_cons_self x names)
      have hstep : addName A x = A ++ [x] := by simp [addName, hx]
      simp only [List.foldl_cons, hstep]
      rw [foldl_addName_eq_append names (A ++ [x]) (List.Nodup.of_cons hnd)]
      · simp
      · intro n hn
        simp only [List.mem_append, List.mem_singleton]
        rintro (hA | hxeq)
        · exact hdisj n (List.mem_cons_of_mem x hn) hA
        · subst hxeq
          exact (List.nodup_cons.mp hnd).1 hn

theorem archivedChain_length (out : String) :
    ∀ (ts : List Nat) (f : FileEntry),
      (archivedChain out f ts).length = ts.length
  | [], _ => rfl
  | t :: ts, f => by
      simp only [archivedChain, List.length_cons]
      rw [archivedChain_length out ts ⟨out, t⟩]

/-- C8 counterexample: the claim as stated is false. Starting from a state
with one current file and an empty archive, N = 1 successful promotion
leaves one archived file, not N − 1 = 0. -/
theorem single_promotion_archives_one_file :
    (promoteMany "merged.xml.gz" [10] 99
        ⟨[⟨"merged.xml.gz", 5⟩], []⟩).archiveNames.length = 1 ∧
    (1 : Nat) ≠ 1 - 1 := by
  constructor
  · rfl
  · decide

/-- C8 amended: after every successful promote exactly one file is current;
after N successive promotions starting from a state with one current file
and an empty archive, exactly one current file and exactly N archived files
exist (provided no two archived files collide on name and second-granularity
timestamp), each archived file name carrying a timestamp suffix derived from
that file own last-modified time; the promotion wall-clock time influences
nothing. -/
theorem archive_rotation_counts (out : String) (f0 : FileEntry)
    (ts : List Nat) (now now2 : Nat)
    (hnodup : (archivedChain out f0 ts).Nodup) :
    (promoteMany out ts now ⟨[f0], []⟩).currentFiles.length = 1 ∧
    (promoteMany out ts now ⟨[f0], []⟩).archiveNames.length = ts.length ∧
    (promoteMany out ts now ⟨[f0], []⟩).archiveNames = archivedChain out f0 ts ∧
    promoteMany out ts now2 ⟨[f0], []⟩ = promoteMany out ts now ⟨[f0], []⟩ := by
  have hclosed := promoteMany_closed out now ts f0 []
  have hclosed2 := promoteMany_closed out now2 ts f0 []
  have hfold : List.foldl addName [] (archivedChain out f0 ts) =
      archivedChain out f0 ts := by
    have := foldl_addName_eq_append (archivedChain out f0 ts) [] hnodup
      (fun n _ => List.not_mem_nil n)
    simpa using this
  refine ⟨?_, ?_, ?_, ?_⟩
  · rw [hclosed]
    rfl
  · rw [hclosed]
    show (List.foldl addName [] (archivedChain out f0 ts)).length = ts.length
    rw [hfold, archivedChain_length]
  · rw [hclosed]
    exact hfold
  · rw [hclosed, hclosed2]

/-- C8 witness: two promotions from one current file leave one current and
two archived files with mtime-derived names, for either promotion time. -/
theorem archive_rotation_counts_witness :
    (archivedChain "merged.xml.gz" ⟨"merged.xml.gz", 1⟩ [2, 3]).Nodup ∧
    ((promoteMany "merged.xml.gz" [2, 3] 50
        ⟨[⟨"merged.xml.gz", 1⟩], []⟩).currentFiles.length = 1 ∧
     (promoteMany "merged.xml.gz" [2, 3] 50
        ⟨[⟨"merged.xml.gz", 1⟩], []⟩).archiveNames.length = [2, 3].length ∧
     (promoteMany "merged.xml.gz" [2, 3] 50
        ⟨[⟨"merged.xml.gz", 1⟩], []⟩).archiveNames =
       archivedChain "merged.xml.gz" ⟨"merged.xml.gz", 1⟩ [2, 3] ∧
     promoteMany "merged.xml.gz" [2, 3] 60 ⟨[⟨"merged.xml.gz", 1⟩], []⟩ =
       promoteMany "merged.xml.gz" [2, 3] 50 ⟨[⟨"merged.xml.gz", 1⟩], []⟩) :=
  ⟨by decide,
   archive_rotation_counts "merged.xml.gz" ⟨"merged.xml.gz", 1⟩ [2, 3] 50 60
     (by decide)⟩

/-- C9: the startup scan (which runs with the default threshold of 2 hours)
transitions every persisted record still in running whose start time is 3
hours in the past to failed with an explanatory message and a completion
time, and leaves a running record whose start time is 10 minutes in the
past untouched. -/
theorem stuck_job_recovery_thresholds (j : JobRecord) (rest : List JobRecord)
    (hrun : j.status = "running") :
    startup_stuck_scan (j.started_at + 3 * 3600) (j :: rest) =
      { j with status := "failed",
               completed_at := some (j.started_at + 3 * 3600),
               error_message := some recoveryMessage } ::
        startup_stuck_scan (j.started_at + 3 * 3600) rest ∧
    startup_stuck_scan (j.started_at + 600) (j :: rest) =
      j :: startup_stuck_scan (j.started_at + 600) rest := by
  constructor
  · simp only [startup_stuck_scan, cleanup_stuck_jobs, List.map_cons]
    rw [if_pos ⟨hrun, by omega⟩]
  · simp only [startup_stuck_scan, cleanup_stuck_jobs, List.map_cons]
    rw [if_neg (fun h => absurd h.2 (by omega))]

/-- C9 witness at concrete records. -/
theorem stuck_job_recovery_thresholds_witness :
    ((⟨"j1", "running", 0, none, none⟩ : JobRecord).status = "running") ∧
    (startup_stuck_scan 10800 [⟨"j1", "running", 0, none, none⟩] =
        [⟨"j1", "failed", 0, some 10800, some recoveryMessage⟩] ∧
     startup_stuck_scan 600 [⟨"j1", "running", 0, none, none⟩] =
        [⟨"j1", "running", 0, none, none⟩]) :=
  ⟨rfl, stuck_job_recovery_thresholds ⟨"j1", "running", 0, none, none⟩ [] rfl⟩

theorem current_job_task_always_none :
    ∀ (evs : List JobEvent), (runJobEvents evs).current_job_task = none := by
  have general : ∀ (evs : List JobEvent) (st : JobControllerState),
      st.current_job_task = none →
      (evs.foldl jobStep st).current_job_task = none := by
    intro evs
    induction evs with
    | nil => intro st h; exact h
    | cons e evs ih =>
        intro st h
        apply ih
        cases e with
        | startJob => exact h
        | finishJob => rfl
        | cancelRequest =>
            show (cancel_running_job st).snd.current_job_task = none
            rw [cancel_running_job, if_pos (Or.inr h)]
            exact h
  intro evs
  exact general evs initialJobState rfl

/-- C2: the claim is right and the code is wrong. In every controller state
reachable from startup, current_job_task is still none, because no code path
ever stores the running job in it; hence while a job is running an explicit
external cancel request answers no_job, leaves the state unchanged, cancels
nothing, stops no sampler, persists no terminal record and leaves the
is-running flag set. -/
theorem cancel_request_never_cancels_running_job (evs : List JobEvent)
    (hrun : (runJobEvents evs).is_job_running = true) :
    cancel_running_job (runJobEvents evs) =
      (CancelResponse.no_job, runJobEvents evs) ∧
    (runJobEvents evs).current_job_task = none ∧
    ((cancel_running_job (runJobEvents evs)).snd).is_job_running = true := by
  have htask := current_job_task_always_none evs
  have hcancel : cancel_running_job (runJobEvents evs) =
      (CancelResponse.no_job, runJobEvents evs) := by
    rw [cancel_running_job, if_pos (Or.inr htask)]
  refine ⟨hcancel, htask, ?_⟩
  rw [hcancel]
  exact hrun

/-- C2 witness: right after a job starts, the running flag is set and the
cancel endpoint still answers no_job without changing anything. -/
theorem cancel_request_never_cancels_running_job_witness :
    (runJobEvents [JobEvent.startJob]).is_job_running = true ∧
    (cancel_running_job (runJobEvents [JobEvent.startJob]) =
        (CancelResponse.no_job, runJobEvents [JobEvent.startJob]) ∧
      (runJobEvents [JobEvent.startJob]).current_job_task = none ∧
      ((cancel_running_job (runJobEvents [JobEvent.startJob])).snd).is_job_running = true) :=
  ⟨rfl, cancel_request_never_cancels_running_job [JobEvent.startJob] rfl⟩

end EpgMerge
